import Mathlib

/-!
Shallow embedding of the `scout` configuration loader (src/git.rs, src/parser.rs).

Modelling choices:
* Rust `HashMap<String, V>` is modelled as an association list `List (String × V)`
  with `insertAL` (replace the existing binding in place, else append) and
  `lookupAL` (first match).  `HashMap::insert` overwrites (last write wins) and
  iteration order is unspecified in Rust; the list order stands in for one such
  iteration order, and order-independence of resolution is proved where claimed.
* The `Rc<RefCell<Branch>>` inheritance edges are modelled as the parent
  branch's name, a key into the owning `Repo`'s branch map: two children
  holding edges to the same key share the one map entry, which is the
  shared-node semantics.
* The `.unwrap()` in `Repo::from_toml`'s wiring pass is modelled by an outer
  `Option`: `none` is the panic outcome, `some (.error e)` an error return,
  `some (.ok v)` success.
* The error enum `core::Error` (its defining module is not under src/, but its
  shape is pinned by the uses in parser.rs and main.rs) has the two variants
  `TomlError` (shape errors) and `StructuralError`, each carrying the message.
-/

set_option autoImplicit false

namespace Scout

/-- First-match lookup in an association list (models `HashMap::get`). -/
def lookupAL {α : Type} : List (String × α) → String → Option α
  | [], _ => none
  | (k, v) :: rest, n => if k = n then some v else lookupAL rest n

/-- Insert into an association list, replacing an existing binding in place and
appending otherwise (models `HashMap::insert`, last write wins). -/
def insertAL {α : Type} : List (String × α) → String → α → List (String × α)
  | [], k, v => [(k, v)]
  | (k0, v0) :: rest, k, v =>
      if k0 = k then (k, v) :: rest else (k0, v0) :: insertAL rest k v

/-- A generic TOML value, as produced by the external TOML parser. -/
inductive Toml where
  | str : String → Toml
  | int : Int → Toml
  | arr : List Toml → Toml
  | table : List (String × Toml) → Toml

abbrev TomlTable := List (String × Toml)

/-- Models `toml::Value::as_str`. -/
def Toml.as_str : Toml → Option String
  | .str s => some s
  | _ => none

/-- Models `toml::Value::as_slice`. -/
def Toml.as_slice : Toml → Option (List Toml)
  | .arr l => some l
  | _ => none

/-- Models `toml::Value::as_table`. -/
def Toml.as_table : Toml → Option TomlTable
  | .table t => some t
  | _ => none

/-- The error enum `core::Error`: `TomlError` carries shape-error messages,
`StructuralError` carries semantic (cross-reference) error messages. -/
inductive Error where
  | TomlError : String → Error
  | StructuralError : String → Error
deriving DecidableEq

/-! ## git.rs: the resolved entity model -/

/-- The resolved `git::Branch`.  `inherits` holds the names (map keys) of the
parent branches, standing in for the `Vec<BranchRef>` of shared references. -/
structure Branch where
  name : String
  inherits : List String
deriving DecidableEq

/-- Models `Branch::new`. -/
def Branch.new (name : String) : Branch := ⟨name, []⟩

/-- The resolved `git::Repo`. -/
structure Repo where
  name : String
  branches : List (String × Branch)
deriving DecidableEq

/-- Models `Repo::new`. -/
def Repo.new (name : String) : Repo := ⟨name, []⟩

/-- Models `Repo::add_branch`: the entry is keyed by the branch's own name. -/
def Repo.add_branch (r : Repo) (b : Branch) : Repo :=
  ⟨r.name, insertAL r.branches b.name b⟩

/-- Models `Repo::find_branch`. -/
def Repo.find_branch (r : Repo) (n : String) : Option Branch :=
  lookupAL r.branches n

/-- The resolved `git::Context`. -/
structure Context where
  repos : List (String × Repo)
deriving DecidableEq

/-- Models `Context::new`. -/
def Context.new : Context := ⟨[]⟩

/-- Models `Context::add_repo`: the entry is keyed by the repo's own name. -/
def Context.add_repo (c : Context) (r : Repo) : Context :=
  ⟨insertAL c.repos r.name r⟩

/-! ## parser.rs: declarations and decoding -/

/-- The declaration `parser::ParsedBranch` (the spec's BranchDeclaration). -/
structure ParsedBranch where
  name : String
  inherits : List String
deriving DecidableEq

/-- The declaration `parser::ParsedRepo` (the spec's RepoDeclaration). -/
structure ParsedRepo where
  name : String
  branches : List (String × ParsedBranch)
deriving DecidableEq

/-- The loop over the `inherits` array in `ParsedBranch::from_toml`: each
element must be a string; the strings are collected in order. -/
def readInherits : List Toml → Except Error (List String)
  | [] => .ok []
  | b :: rest =>
      match b.as_str with
      | none => .error (.TomlError "`inherits` values should be strings")
      | some s => (readInherits rest).map fun l => s :: l

/-- Models `ParsedBranch::from_toml` (the spec's decode_branch). -/
def ParsedBranch.from_toml (tbl : TomlTable) : Except Error ParsedBranch :=
  match (lookupAL tbl "name").bind Toml.as_str with
  | none => .error (.TomlError "table `branch` should have a `name` attribute")
  | some name =>
      match lookupAL tbl "inherits" with
      | none => .ok ⟨name, []⟩
      | some v =>
          match v.as_slice with
          | none => .error (.TomlError "value `inherits` should be an array")
          | some branches => (readInherits branches).map fun l => ⟨name, l⟩

/-- The loop over the `branch` array in `ParsedRepo::from_toml`: each element
must be a table, is decoded, and is inserted keyed by its name. -/
def decodeBranches :
    List Toml → List (String × ParsedBranch) →
    Except Error (List (String × ParsedBranch))
  | [], acc => .ok acc
  | b :: rest, acc =>
      match b.as_table with
      | none => .error (.TomlError "value `branch` should be a table")
      | some t =>
          match ParsedBranch.from_toml t with
          | .error e => .error e
          | .ok pb => decodeBranches rest (insertAL acc pb.name pb)

/-- Models `ParsedRepo::from_toml` (the spec's decode_repo). -/
def ParsedRepo.from_toml (tbl : TomlTable) : Except Error ParsedRepo :=
  match (lookupAL tbl "name").bind Toml.as_str with
  | none => .error (.TomlError "table `repo` should have a `name` attribute")
  | some name =>
      match (lookupAL tbl "branch").bind Toml.as_slice with
      | none => .error (.TomlError "table `repo` should have an array `branch`")
      | some branches => (decodeBranches branches []).map fun bs => ⟨name, bs⟩

/-! ## parser.rs: the graph resolver (`impl FromToml for Repo` / `Context`) -/

/-- The node-creation pass of `Repo::from_toml`: one `Branch::new` per key of
the parsed branch mapping, added via `add_branch`. -/
def addAll (r : Repo) (names : List String) : Repo :=
  names.foldl (fun acc n => acc.add_branch (Branch.new n)) r

/-- Append one parent edge onto the entry stored under `child` in the branch
map (the in-place push performed through the `RefCell`). -/
def updAL (child parent : String) : List (String × Branch) → List (String × Branch)
  | [] => []
  | (k, b) :: rest =>
      if k = child then (k, ⟨b.name, b.inherits ++ [parent]⟩) :: rest
      else (k, b) :: updAL child parent rest

/-- Append one parent edge onto the branch stored under `child` (the in-place
`child.inherits_from(parent_branch)` push through the `RefCell`). -/
def updateBranch (r : Repo) (child parent : String) : Repo :=
  ⟨r.name, updAL child parent r.branches⟩

/-- The inner loop of the edge-wiring pass: for each parent name in order,
reject self-inheritance, then look the parent up in the same repo, and on
success push the edge onto the child. -/
def wireParents (repoName childName : String) :
    Repo → List String → Except Error Repo
  | r, [] => .ok r
  | r, parent :: rest =>
      if parent = childName then
        .error (.StructuralError
          ("branch `" ++ parent ++ "` in repo `" ++ repoName ++
            "` cannot inherit from itself"))
      else
        match r.find_branch parent with
        | some _ => wireParents repoName childName (updateBranch r childName parent) rest
        | none =>
            .error (.StructuralError
              ("unknown branch `" ++ parent ++ "` in repo `" ++ repoName ++ "`"))

/-- The outer loop of the edge-wiring pass over the parsed branch values.
`none` models the panic of `repo.find_branch(&parsed_branch.name).unwrap()`. -/
def wireAll (repoName : String) :
    Repo → List ParsedBranch → Option (Except Error Repo)
  | r, [] => some (.ok r)
  | r, pb :: rest =>
      match r.find_branch pb.name with
      | none => none
      | some _ =>
          match wireParents repoName pb.name r pb.inherits with
          | .error e => some (.error e)
          | .ok r2 => wireAll repoName r2 rest

/-- The resolution part of `Repo::from_toml`: node-creation pass over the keys,
then the edge-wiring pass over the values. -/
def resolveRepo (parsed : ParsedRepo) : Option (Except Error Repo) :=
  wireAll parsed.name
    (addAll (Repo.new parsed.name) (parsed.branches.map Prod.fst))
    (parsed.branches.map Prod.snd)

/-- Models `impl FromToml for Repo`: decode the declaration, then resolve. -/
def Repo.from_toml (tbl : TomlTable) : Option (Except Error Repo) :=
  match ParsedRepo.from_toml tbl with
  | .error e => some (.error e)
  | .ok parsed => resolveRepo parsed

/-- The loop over the `repo` array in `Context::from_toml`: each element must
be a table, is resolved as a repo, and is added to the context. -/
def buildRepos : List Toml → Context → Option (Except Error Context)
  | [], ctx => some (.ok ctx)
  | r :: rest, ctx =>
      match r.as_table with
      | none => some (.error (.TomlError "value `repo` should be a table"))
      | some t =>
          match Repo.from_toml t with
          | none => none
          | some (.error e) => some (.error e)
          | some (.ok repo) => buildRepos rest (ctx.add_repo repo)

/-- Models `impl FromToml for Context` (decode_context plus resolution). -/
def Context.from_toml (tbl : TomlTable) : Option (Except Error Context) :=
  match (lookupAL tbl "repo").bind Toml.as_slice with
  | none => some (.error (.TomlError "value `repo` should be an array"))
  | some repos => buildRepos repos Context.new

/-! ## Derived notions used in the statements -/

/-- The keys of a parsed repo's branch mapping. -/
def repoKeys (parsed : ParsedRepo) : List String :=
  parsed.branches.map Prod.fst

/-- The keys of a resolved repo's branch mapping. -/
def rkeys (r : Repo) : List String :=
  r.branches.map Prod.fst

/-- Every entry of the parsed branch mapping is keyed by its branch's name
(guaranteed by `ParsedRepo.from_toml`, which inserts keyed by `b.name`). -/
def WellKeyed (parsed : ParsedRepo) : Prop :=
  ∀ e ∈ parsed.branches, e.2.name = e.1

instance (parsed : ParsedRepo) : Decidable (WellKeyed parsed) :=
  inferInstanceAs (Decidable (∀ e ∈ parsed.branches, e.2.name = e.1))

/-- One `inherits` entry `x` of a branch declaration `q` is valid: not a
self-reference and present among the declared keys. -/
def ValidEntry (ks : List String) (q : ParsedBranch) (x : String) : Prop :=
  x ≠ q.name ∧ x ∈ ks

instance (ks : List String) (q : ParsedBranch) (x : String) :
    Decidable (ValidEntry ks q x) :=
  inferInstanceAs (Decidable (x ≠ q.name ∧ x ∈ ks))

/-- Every entry of a resolved repo's branch mapping is keyed by the stored
branch's own name. -/
def RepoKeyEqName (r : Repo) : Prop :=
  ∀ e ∈ r.branches, e.2.name = e.1

instance (r : Repo) : Decidable (RepoKeyEqName r) :=
  inferInstanceAs (Decidable (∀ e ∈ r.branches, e.2.name = e.1))

/-- Every entry of a resolved context's repo mapping is keyed by the stored
repo's own name. -/
def CtxKeyEqName (c : Context) : Prop :=
  ∀ e ∈ c.repos, e.2.name = e.1

/-- The accumulated effect of `wireParents` on success: all parent edges
pushed onto the child in order. -/
def pushAll (r : Repo) (child : String) (parents : List String) : Repo :=
  parents.foldl (fun acc p => updateBranch acc child p) r

/-- The accumulated effect of `wireAll` on success: each parsed branch's
parent edges pushed onto its node, in declaration order. -/
def wireFold (r : Repo) (pbs : List ParsedBranch) : Repo :=
  pbs.foldl (fun acc pb => pushAll acc pb.name pb.inherits) r

/-! ## Concrete documents for the scenario claims -/

/-- A branch table `{ name = n }` or `{ name = n, inherits = [...] }`. -/
def branchTbl (n : String) (inh : List String) : Toml :=
  .table [("name", .str n), ("inherits", .arr (inh.map Toml.str))]

/-- A branch table with no `inherits` key. -/
def branchTbl0 (n : String) : Toml :=
  .table [("name", .str n)]

/-- A repo table with a name and an array of branch tables. -/
def repoTbl (n : String) (bs : List Toml) : Toml :=
  .table [("name", .str n), ("branch", .arr bs)]

/-- The diamond document: one repo `r` with branches `a`; `b` and `c` both
inheriting `a`; `d` inheriting `b` and `c`. -/
def diamondDoc : TomlTable :=
  [("repo", .arr [repoTbl "r"
    [branchTbl0 "a", branchTbl "b" ["a"], branchTbl "c" ["a"],
     branchTbl "d" ["b", "c"]]])]

/-- The resolved repo of the diamond document. -/
def diamondRepo : Repo :=
  ⟨"r", [("a", ⟨"a", []⟩), ("b", ⟨"b", ["a"]⟩), ("c", ⟨"c", ["a"]⟩),
         ("d", ⟨"d", ["b", "c"]⟩)]⟩

/-- A document where repo `z` declares branch `c`, and repo `a` declares
branch `b` inheriting the foreign `c`: the cross-repository reference. -/
def crossRepoDoc : TomlTable :=
  [("repo", .arr [repoTbl "z" [branchTbl0 "c"],
                  repoTbl "a" [branchTbl "b" ["c"]]])]

/-- A document with two branches named `b` in repo `a` (the second inheriting
`x`), and a second repo also named `a` (with branch `y`): duplicate names at
both levels. -/
def dupDoc : TomlTable :=
  [("repo", .arr
    [repoTbl "a" [branchTbl0 "x", branchTbl0 "b", branchTbl "b" ["x"]],
     repoTbl "a" [branchTbl0 "y"]])]

end Scout

/-! ## Association-list lemmas -/

namespace Scout

theorem lookupAL_insertAL {α : Type} (m : List (String × α)) (k : String)
    (v : α) (n : String) :
    lookupAL (insertAL m k v) n = if k = n then some v else lookupAL m n := by
  induction m with
  | nil => simp [insertAL, lookupAL]
  | cons e rest ih =>
      obtain ⟨k0, v0⟩ := e
      by_cases h0 : k0 = k
      · subst h0
        by_cases hn : k0 = n <;> simp [insertAL, lookupAL, hn]
      · by_cases hn : k0 = n
        · subst hn
          simp [insertAL, lookupAL, h0, Ne.symm h0]
        · simp [insertAL, lookupAL, h0, hn, ih]

theorem mem_insertAL {α : Type} {m : List (String × α)} {k : String} {v : α}
    {e : String × α} (h : e ∈ insertAL m k v) : e ∈ m ∨ e = (k, v) := by
  induction m with
  | nil => simpa [insertAL] using h
  | cons e0 rest ih =>
      obtain ⟨k0, v0⟩ := e0
      by_cases h0 : k0 = k
      · subst h0
        rcases (by simpa [insertAL] using h : e = (k0, v) ∨ e ∈ rest) with h1 | h1
        · exact Or.inr h1
        · exact Or.inl (List.mem_cons_of_mem _ h1)
      · rcases (by simpa [insertAL, h0] using h :
            e = (k0, v0) ∨ e ∈ insertAL rest k v) with h1 | h1
        · exact Or.inl (by simp [h1])
        · rcases ih h1 with h2 | h2
          · exact Or.inl (List.mem_cons_of_mem _ h2)
          · exact Or.inr h2

theorem keys_insertAL {α : Type} (m : List (String × α)) (k : String) (v : α) :
    (insertAL m k v).map Prod.fst =
      if k ∈ m.map Prod.fst then m.map Prod.fst else m.map Prod.fst ++ [k] := by
  induction m with
  | nil => simp [insertAL]
  | cons e rest ih =>
      obtain ⟨k0, v0⟩ := e
      by_cases h0 : k0 = k
      · subst h0
        simp [insertAL]
      · by_cases hk : k ∈ rest.map Prod.fst <;>
          simp [insertAL, h0, Ne.symm h0, hk, ih]

theorem nodupKeys_insertAL {α : Type} {m : List (String × α)} {k : String}
    {v : α} (h : (m.map Prod.fst).Nodup) :
    ((insertAL m k v).map Prod.fst).Nodup := by
  rw [keys_insertAL]
  by_cases hk : k ∈ m.map Prod.fst
  · simpa [hk]
  · simpa [hk] using List.Nodup.append h (by simp) (by simpa using hk)

theorem lookupAL_mem {α : Type} {m : List (String × α)} {n : String} {v : α}
    (h : lookupAL m n = some v) : (n, v) ∈ m := by
  induction m with
  | nil => simp [lookupAL] at h
  | cons e rest ih =>
      obtain ⟨k0, v0⟩ := e
      by_cases h0 : k0 = n
      · subst h0
        simp [lookupAL] at h
        simp [h]
      · exact List.mem_cons_of_mem _ (ih (by simpa [lookupAL, h0] using h))

theorem mem_lookupAL {α : Type} {m : List (String × α)} {n : String} {v : α}
    (hnd : (m.map Prod.fst).Nodup) (h : (n, v) ∈ m) : lookupAL m n = some v := by
  induction m with
  | nil => simp at h
  | cons e rest ih =>
      obtain ⟨k0, v0⟩ := e
      have hk : k0 ∉ rest.map Prod.fst ∧ (rest.map Prod.fst).Nodup := by
        simpa [List.nodup_cons] using hnd
      rcases List.mem_cons.mp h with h1 | h1
      · injection h1 with ha hb
        subst ha; subst hb
        simp [lookupAL]
      · have hne : k0 ≠ n := by
          rintro rfl
          exact hk.1 (List.mem_map_of_mem Prod.fst h1)
        simpa [lookupAL, hne] using ih hk.2 h1

theorem lookupAL_eq_none_iff {α : Type} (m : List (String × α)) (n : String) :
    lookupAL m n = none ↔ n ∉ m.map Prod.fst := by
  induction m with
  | nil => simp [lookupAL]
  | cons e rest ih =>
      obtain ⟨k0, v0⟩ := e
      by_cases h0 : k0 = n
      · subst h0
        simp [lookupAL]
      · simp [lookupAL, h0, ih, Ne.symm h0]

theorem lookupAL_isSome_iff {α : Type} (m : List (String × α)) (n : String) :
    (lookupAL m n).isSome ↔ n ∈ m.map Prod.fst := by
  induction m with
  | nil => simp [lookupAL]
  | cons e rest ih =>
      obtain ⟨k0, v0⟩ := e
      by_cases h0 : k0 = n
      · subst h0
        simp [lookupAL]
      · simp [lookupAL, h0, ih, Ne.symm h0]

theorem lookupAL_perm {α : Type} {m1 m2 : List (String × α)}
    (hp : m1.Perm m2) (hnd : (m1.map Prod.fst).Nodup) (n : String) :
    lookupAL m1 n = lookupAL m2 n := by
  have hnd2 : (m2.map Prod.fst).Nodup := ((hp.map Prod.fst).nodup_iff).mp hnd
  cases h : lookupAL m1 n with
  | some v => exact (mem_lookupAL hnd2 (hp.mem_iff.mp (lookupAL_mem h))).symm
  | none =>
      have : n ∉ m2.map Prod.fst := fun hc =>
        (lookupAL_eq_none_iff m1 n).mp h ((hp.map Prod.fst).mem_iff.mpr hc)
      exact ((lookupAL_eq_none_iff m2 n).mpr this).symm

theorem mem_split_first {α : Type} {a : α} {l : List α}
    (h : a ∈ l) : ∃ s t, l = s ++ a :: t ∧ a ∉ s := by
  induction l with
  | nil => simp at h
  | cons x rest ih =>
      by_cases hx : x = a
      · exact ⟨[], rest, by simp [hx], by simp⟩
      · have h1 : a ∈ rest := by
          rcases List.mem_cons.mp h with h2 | h2
          · exact absurd h2.symm hx
          · exact h2
        rcases ih h1 with ⟨s, t, rfl, hns⟩
        refine ⟨x :: s, t, by simp, ?_⟩
        simp only [List.mem_cons]
        rintro (rfl | hmem)
        · exact hx rfl
        · exact hns hmem

end Scout

/-! ## Node-creation pass lemmas -/

namespace Scout

theorem find_branch_add_branch (r : Repo) (b : Branch) (n : String) :
    (r.add_branch b).find_branch n =
      if b.name = n then some b else r.find_branch n := by
  simp [Repo.add_branch, Repo.find_branch, lookupAL_insertAL]

theorem name_add_branch (r : Repo) (b : Branch) :
    (r.add_branch b).name = r.name := rfl

theorem find_branch_addAll (r : Repo) (ks : List String) (n : String) :
    (addAll r ks).find_branch n =
      if n ∈ ks then some (Branch.new n) else r.find_branch n := by
  induction ks generalizing r with
  | nil => simp [addAll]
  | cons k rest ih =>
      have hstep : addAll r (k :: rest) = addAll (r.add_branch (Branch.new k)) rest := rfl
      rw [hstep, ih]
      by_cases hr : n ∈ rest
      · simp [hr]
      · by_cases hk : k = n
        · subst hk
          simp [hr, find_branch_add_branch, Branch.new]
        · simp [hr, hk, Ne.symm hk, find_branch_add_branch, Branch.new]

theorem name_addAll (r : Repo) (ks : List String) :
    (addAll r ks).name = r.name := by
  induction ks generalizing r with
  | nil => rfl
  | cons k rest ih => simpa [addAll] using ih (r.add_branch (Branch.new k))

theorem rkeys_nodup_addAll (r : Repo) (ks : List String)
    (h : (rkeys r).Nodup) : (rkeys (addAll r ks)).Nodup := by
  induction ks generalizing r with
  | nil => exact h
  | cons k rest ih =>
      exact ih (r.add_branch (Branch.new k))
        (nodupKeys_insertAL h)

theorem mem_rkeys_iff_find_isSome (r : Repo) (n : String) :
    n ∈ rkeys r ↔ (r.find_branch n).isSome := by
  exact (lookupAL_isSome_iff r.branches n).symm

theorem mem_rkeys_addAll (r : Repo) (ks : List String) (n : String) :
    n ∈ rkeys (addAll r ks) ↔ n ∈ ks ∨ n ∈ rkeys r := by
  rw [mem_rkeys_iff_find_isSome, find_branch_addAll]
  by_cases hk : n ∈ ks
  · simp [hk]
  · simp [hk, mem_rkeys_iff_find_isSome]

/-! ## Edge-wiring pass lemmas -/

theorem keys_updAL (c p : String) (l : List (String × Branch)) :
    (updAL c p l).map Prod.fst = l.map Prod.fst := by
  induction l with
  | nil => rfl
  | cons e rest ih =>
      obtain ⟨k, b⟩ := e
      by_cases hk : k = c <;> simp [updAL, hk, ih]

theorem rkeys_updateBranch (r : Repo) (c p : String) :
    rkeys (updateBranch r c p) = rkeys r := by
  simp [rkeys, updateBranch, keys_updAL]

theorem name_updateBranch (r : Repo) (c p : String) :
    (updateBranch r c p).name = r.name := rfl

theorem find_updateBranch (r : Repo) (c p n : String) :
    (updateBranch r c p).find_branch n =
      if c = n then (r.find_branch n).map (fun b => ⟨b.name, b.inherits ++ [p]⟩)
      else r.find_branch n := by
  show lookupAL (updAL c p r.branches) n = _
  show _ = if c = n then (lookupAL r.branches n).map _ else lookupAL r.branches n
  induction r.branches with
  | nil => by_cases hc : c = n <;> simp [updAL, lookupAL, hc]
  | cons e rest ih =>
      obtain ⟨k, b⟩ := e
      by_cases hk : k = c
      · subst hk
        by_cases hn : k = n
        · subst hn
          simp [updAL, lookupAL]
        · simp [updAL, lookupAL, hn]
      · by_cases hn : k = n
        · subst hn
          have hc : ¬ c = k := fun h => hk h.symm
          simp [updAL, lookupAL, hk, hc]
        · simp [updAL, lookupAL, hk, hn, ih]

end Scout

namespace Scout

theorem rkeys_pushAll (r : Repo) (c : String) (ps : List String) :
    rkeys (pushAll r c ps) = rkeys r := by
  induction ps generalizing r with
  | nil => rfl
  | cons p rest ih =>
      calc rkeys (pushAll (updateBranch r c p) c rest)
          = rkeys (updateBranch r c p) := ih _
        _ = rkeys r := rkeys_updateBranch r c p

theorem name_pushAll (r : Repo) (c : String) (ps : List String) :
    (pushAll r c ps).name = r.name := by
  induction ps generalizing r with
  | nil => rfl
  | cons p rest ih =>
      calc (pushAll (updateBranch r c p) c rest).name
          = (updateBranch r c p).name := ih _
        _ = r.name := rfl

theorem find_pushAll (r : Repo) (c : String) (ps : List String) (n : String) :
    (pushAll r c ps).find_branch n =
      if c = n then (r.find_branch n).map (fun b => ⟨b.name, b.inherits ++ ps⟩)
      else r.find_branch n := by
  induction ps generalizing r with
  | nil =>
      by_cases hc : c = n
      · cases hb : r.find_branch n <;> simp [pushAll, hc, hb]
      · simp [pushAll, hc]
  | cons p rest ih =>
      have hstep : pushAll r c (p :: rest) = pushAll (updateBranch r c p) c rest := rfl
      rw [hstep, ih, find_updateBranch]
      by_cases hc : c = n
      · cases hb : r.find_branch n <;> simp [hc, hb]
      · simp [hc]

theorem wireParents_ok_of_valid (rn cn : String) (r : Repo) (ps : List String)
    (h : ∀ p ∈ ps, p ≠ cn ∧ p ∈ rkeys r) :
    wireParents rn cn r ps = .ok (pushAll r cn ps) := by
  induction ps generalizing r with
  | nil => rfl
  | cons p rest ih =>
      obtain ⟨hp1, hp2⟩ := h p (by simp)
      obtain ⟨b, hb⟩ := Option.isSome_iff_exists.mp
        ((mem_rkeys_iff_find_isSome r p).mp hp2)
      have hrest : ∀ q ∈ rest, q ≠ cn ∧ q ∈ rkeys (updateBranch r cn p) := by
        intro q hq
        rw [rkeys_updateBranch]
        exact h q (List.mem_cons_of_mem _ hq)
      simpa [wireParents, hp1, hb] using ih (updateBranch r cn p) hrest

theorem wireParents_ok_elim {rn cn : String} {r : Repo} {ps : List String}
    {r2 : Repo} (h : wireParents rn cn r ps = .ok r2) :
    (∀ p ∈ ps, p ≠ cn ∧ p ∈ rkeys r) ∧ r2 = pushAll r cn ps := by
  induction ps generalizing r with
  | nil =>
      refine ⟨by simp, ?_⟩
      have : r = r2 := by simpa [wireParents] using h
      simpa [pushAll] using this.symm
  | cons p rest ih =>
      by_cases hp : p = cn
      · simp [wireParents, hp] at h
      · cases hb : r.find_branch p with
        | none => simp [wireParents, hp, hb] at h
        | some b =>
            have h2 : wireParents rn cn (updateBranch r cn p) rest = .ok r2 := by
              simpa [wireParents, hp, hb] using h
            obtain ⟨hv, hr2⟩ := ih h2
            refine ⟨?_, hr2⟩
            intro q hq
            rcases List.mem_cons.mp hq with rfl | hq2
            · exact ⟨hp, (mem_rkeys_iff_find_isSome r q).mpr (by simp [hb])⟩
            · have := hv q hq2
              rwa [rkeys_updateBranch] at this

theorem wireParents_error_self (rn cn : String) (r : Repo)
    (pre rest : List String) (hpre : ∀ p ∈ pre, p ≠ cn ∧ p ∈ rkeys r) :
    wireParents rn cn r (pre ++ cn :: rest) =
      .error (.StructuralError ("branch `" ++ cn ++ "` in repo `" ++ rn ++
        "` cannot inherit from itself")) := by
  induction pre generalizing r with
  | nil => simp [wireParents]
  | cons p pre ih =>
      obtain ⟨hp1, hp2⟩ := hpre p (by simp)
      obtain ⟨b, hb⟩ := Option.isSome_iff_exists.mp
        ((mem_rkeys_iff_find_isSome r p).mp hp2)
      have hrest : ∀ q ∈ pre, q ≠ cn ∧ q ∈ rkeys (updateBranch r cn p) := by
        intro q hq
        rw [rkeys_updateBranch]
        exact hpre q (List.mem_cons_of_mem _ hq)
      simpa [wireParents, hp1, hb] using ih (updateBranch r cn p) hrest

theorem wireParents_error_unknown (rn cn x : String) (r : Repo)
    (pre rest : List String) (hpre : ∀ p ∈ pre, p ≠ cn ∧ p ∈ rkeys r)
    (hx1 : x ≠ cn) (hx2 : x ∉ rkeys r) :
    wireParents rn cn r (pre ++ x :: rest) =
      .error (.StructuralError ("unknown branch `" ++ x ++ "` in repo `" ++
        rn ++ "`")) := by
  induction pre generalizing r with
  | nil =>
      have hfind : r.find_branch x = none := (lookupAL_eq_none_iff _ _).mpr hx2
      simp [wireParents, hx1, hfind]
  | cons p pre ih =>
      obtain ⟨hp1, hp2⟩ := hpre p (by simp)
      obtain ⟨b, hb⟩ := Option.isSome_iff_exists.mp
        ((mem_rkeys_iff_find_isSome r p).mp hp2)
      have hrest : ∀ q ∈ pre, q ≠ cn ∧ q ∈ rkeys (updateBranch r cn p) := by
        intro q hq
        rw [rkeys_updateBranch]
        exact hpre q (List.mem_cons_of_mem _ hq)
      have hx2b : x ∉ rkeys (updateBranch r cn p) := by
        rwa [rkeys_updateBranch]
      simpa [wireParents, hp1, hb] using ih (updateBranch r cn p) hrest hx2b

theorem wireParents_error_structural {rn cn : String} {r : Repo}
    {ps : List String} {e : Error} (h : wireParents rn cn r ps = .error e) :
    ∃ m, e = .StructuralError m := by
  induction ps generalizing r with
  | nil => simp [wireParents] at h
  | cons p rest ih =>
      by_cases hp : p = cn
      · subst hp
        simp [wireParents] at h
        exact ⟨_, h.symm⟩
      · cases hb : r.find_branch p with
        | none =>
            simp [wireParents, hp, hb] at h
            exact ⟨_, h.symm⟩
        | some b => exact ih (by simpa [wireParents, hp, hb] using h)

end Scout

namespace Scout

theorem wireFold_cons (r : Repo) (pb : ParsedBranch) (pbs : List ParsedBranch) :
    wireFold r (pb :: pbs) = wireFold (pushAll r pb.name pb.inherits) pbs := rfl

theorem wireFold_append (r : Repo) (l1 l2 : List ParsedBranch) :
    wireFold r (l1 ++ l2) = wireFold (wireFold r l1) l2 := by
  simp [wireFold, List.foldl_append]

theorem rkeys_wireFold (r : Repo) (pbs : List ParsedBranch) :
    rkeys (wireFold r pbs) = rkeys r := by
  induction pbs generalizing r with
  | nil => rfl
  | cons pb rest ih =>
      calc rkeys (wireFold (pushAll r pb.name pb.inherits) rest)
          = rkeys (pushAll r pb.name pb.inherits) := ih _
        _ = rkeys r := rkeys_pushAll ..

theorem name_wireFold (r : Repo) (pbs : List ParsedBranch) :
    (wireFold r pbs).name = r.name := by
  induction pbs generalizing r with
  | nil => rfl
  | cons pb rest ih =>
      calc (wireFold (pushAll r pb.name pb.inherits) rest).name
          = (pushAll r pb.name pb.inherits).name := ih _
        _ = r.name := name_pushAll ..

theorem find_wireFold_not_mem {r : Repo} {pbs : List ParsedBranch} {n : String}
    (h : n ∉ pbs.map ParsedBranch.name) :
    (wireFold r pbs).find_branch n = r.find_branch n := by
  induction pbs generalizing r with
  | nil => rfl
  | cons pb rest ih =>
      have h1 : pb.name ≠ n := fun he => h (by simp [he])
      have h2 : n ∉ rest.map ParsedBranch.name := fun he => h (by simp [he])
      rw [wireFold_cons, ih h2, find_pushAll]
      simp [h1]

theorem find_wireFold_mem {r : Repo} {pbs : List ParsedBranch}
    {pb : ParsedBranch} (hnd : (pbs.map ParsedBranch.name).Nodup)
    (hmem : pb ∈ pbs) :
    (wireFold r pbs).find_branch pb.name =
      (r.find_branch pb.name).map
        (fun b => ⟨b.name, b.inherits ++ pb.inherits⟩) := by
  obtain ⟨pre, post, rfl, hnpre⟩ := mem_split_first hmem
  have hpost : pb.name ∉ post.map ParsedBranch.name := by
    have := hnd
    simp only [List.map_append, List.map_cons] at this
    have h2 := (List.nodup_append.mp this).2
    exact (List.nodup_cons.mp h2.1).1
  have hpre : pb.name ∉ pre.map ParsedBranch.name := by
    intro hc
    obtain ⟨q, hq, hqn⟩ := List.mem_map.mp hc
    simp only [List.map_append, List.map_cons] at hnd
    have hdisj := (List.nodup_append.mp hnd).2.2
    exact hdisj (List.mem_map_of_mem ParsedBranch.name hq) (by simp [hqn])
  rw [wireFold_append, wireFold_cons, find_wireFold_not_mem hpost,
      find_pushAll, if_pos rfl, find_wireFold_not_mem hpre]

theorem wireAll_ok_of_valid (rn : String) (r : Repo) (pbs : List ParsedBranch)
    (h : ∀ pb ∈ pbs, pb.name ∈ rkeys r ∧
      ∀ x ∈ pb.inherits, x ≠ pb.name ∧ x ∈ rkeys r) :
    wireAll rn r pbs = some (.ok (wireFold r pbs)) := by
  induction pbs generalizing r with
  | nil => rfl
  | cons pb rest ih =>
      obtain ⟨hn, hv⟩ := h pb (by simp)
      obtain ⟨b, hb⟩ := Option.isSome_iff_exists.mp
        ((mem_rkeys_iff_find_isSome r pb.name).mp hn)
      have hwp := wireParents_ok_of_valid rn pb.name r pb.inherits hv
      have hrest : ∀ q ∈ rest, q.name ∈ rkeys (pushAll r pb.name pb.inherits) ∧
          ∀ x ∈ q.inherits, x ≠ q.name ∧
            x ∈ rkeys (pushAll r pb.name pb.inherits) := by
        intro q hq
        rw [rkeys_pushAll]
        exact h q (List.mem_cons_of_mem _ hq)
      simpa [wireAll, hb, hwp] using ih (pushAll r pb.name pb.inherits) hrest

theorem wireAll_ok_elim {rn : String} {r : Repo} {pbs : List ParsedBranch}
    {r2 : Repo} (h : wireAll rn r pbs = some (.ok r2)) :
    (∀ pb ∈ pbs, pb.name ∈ rkeys r ∧
      ∀ x ∈ pb.inherits, x ≠ pb.name ∧ x ∈ rkeys r) ∧ r2 = wireFold r pbs := by
  induction pbs generalizing r with
  | nil =>
      refine ⟨by simp, ?_⟩
      have : r = r2 := by simpa [wireAll] using h
      exact this.symm
  | cons pb rest ih =>
      cases hb : r.find_branch pb.name with
      | none => simp [wireAll, hb] at h
      | some b =>
          cases hwp : wireParents rn pb.name r pb.inherits with
          | error e => simp [wireAll, hb, hwp] at h
          | ok r3 =>
              obtain ⟨hv, hr3⟩ := wireParents_ok_elim hwp
              have h2 : wireAll rn r3 rest = some (.ok r2) := by
                simpa [wireAll, hb, hwp] using h
              obtain ⟨hrest, hr2⟩ := ih h2
              subst hr3
              refine ⟨?_, by rw [hr2, wireFold_cons]⟩
              intro q hq
              rcases List.mem_cons.mp hq with rfl | hq2
              · exact ⟨(mem_rkeys_iff_find_isSome r q.name).mpr (by simp [hb]), hv⟩
              · have := hrest q hq2
                rwa [rkeys_pushAll] at this

theorem wireAll_ne_none {rn : String} {r : Repo} {pbs : List ParsedBranch}
    (h : ∀ pb ∈ pbs, pb.name ∈ rkeys r) : wireAll rn r pbs ≠ none := by
  induction pbs generalizing r with
  | nil => simp [wireAll]
  | cons pb rest ih =>
      obtain ⟨b, hb⟩ := Option.isSome_iff_exists.mp
        ((mem_rkeys_iff_find_isSome r pb.name).mp (h pb (by simp)))
      cases hwp : wireParents rn pb.name r pb.inherits with
      | error e => simp [wireAll, hb, hwp]
      | ok r3 =>
          obtain ⟨_, hr3⟩ := wireParents_ok_elim hwp
          have hrest : ∀ q ∈ rest, q.name ∈ rkeys r3 := by
            intro q hq
            rw [hr3, rkeys_pushAll]
            exact h q (List.mem_cons_of_mem _ hq)
          simpa [wireAll, hb, hwp] using ih hrest

theorem wireAll_error_structural {rn : String} {r : Repo}
    {pbs : List ParsedBranch} {e : Error}
    (h : wireAll rn r pbs = some (.error e)) : ∃ m, e = .StructuralError m := by
  induction pbs generalizing r with
  | nil => simp [wireAll] at h
  | cons pb rest ih =>
      cases hb : r.find_branch pb.name with
      | none => simp [wireAll, hb] at h
      | some b =>
          cases hwp : wireParents rn pb.name r pb.inherits with
          | error e2 =>
              have : e2 = e := by simpa [wireAll, hb, hwp] using h
              exact this ▸ wireParents_error_structural hwp
          | ok r3 => exact ih (by simpa [wireAll, hb, hwp] using h)

theorem wireAll_error_prefix {rn : String} {r : Repo} {pre rest : List ParsedBranch}
    {pb : ParsedBranch} {e : Error}
    (hpre : ∀ q ∈ pre, q.name ∈ rkeys r ∧
      ∀ x ∈ q.inherits, x ≠ q.name ∧ x ∈ rkeys r)
    (hname : pb.name ∈ rkeys r)
    (herr : wireParents rn pb.name (wireFold r pre) pb.inherits = .error e) :
    wireAll rn r (pre ++ pb :: rest) = some (.error e) := by
  induction pre generalizing r with
  | nil =>
      obtain ⟨b, hb⟩ := Option.isSome_iff_exists.mp
        ((mem_rkeys_iff_find_isSome r pb.name).mp hname)
      have herr0 : wireParents rn pb.name r pb.inherits = .error e := herr
      simp only [List.nil_append]
      simp [wireAll, hb, herr0]
  | cons q pre ih =>
      obtain ⟨hn, hv⟩ := hpre q (by simp)
      obtain ⟨b, hb⟩ := Option.isSome_iff_exists.mp
        ((mem_rkeys_iff_find_isSome r q.name).mp hn)
      have hwp := wireParents_ok_of_valid rn q.name r q.inherits hv
      have hpre2 : ∀ q2 ∈ pre, q2.name ∈ rkeys (pushAll r q.name q.inherits) ∧
          ∀ x ∈ q2.inherits, x ≠ q2.name ∧
            x ∈ rkeys (pushAll r q.name q.inherits) := by
        intro q2 hq2
        rw [rkeys_pushAll]
        exact hpre q2 (List.mem_cons_of_mem _ hq2)
      have hname2 : pb.name ∈ rkeys (pushAll r q.name q.inherits) := by
        rw [rkeys_pushAll]; exact hname
      have herr2 : wireParents rn pb.name
          (wireFold (pushAll r q.name q.inherits) pre) pb.inherits = .error e := by
        rw [← wireFold_cons]; exact herr
      simpa [wireAll, hb, hwp] using ih hpre2 hname2 herr2

end Scout

namespace Scout

theorem rkeys_new (nm : String) : rkeys (Repo.new nm) = [] := rfl

theorem mem_rkeys_node (nm : String) (ks : List String) (n : String) :
    n ∈ rkeys (addAll (Repo.new nm) ks) ↔ n ∈ ks := by
  rw [mem_rkeys_addAll, rkeys_new]
  simp

theorem names_map_snd {parsed : ParsedRepo} (hw : WellKeyed parsed) :
    (parsed.branches.map Prod.snd).map ParsedBranch.name = repoKeys parsed := by
  rw [List.map_map, repoKeys]
  exact List.map_congr_left fun e he => hw e he

theorem resolveRepo_ok_of_valid {parsed : ParsedRepo} (hw : WellKeyed parsed)
    (hv : ∀ e ∈ parsed.branches, ∀ x ∈ e.2.inherits,
      ValidEntry (repoKeys parsed) e.2 x) :
    resolveRepo parsed = some (.ok
      (wireFold (addAll (Repo.new parsed.name) (repoKeys parsed))
        (parsed.branches.map Prod.snd))) := by
  apply wireAll_ok_of_valid
  intro pb hpb
  obtain ⟨e, he, hpb2⟩ := List.mem_map.mp hpb
  subst hpb2
  constructor
  · rw [mem_rkeys_node, hw e he]
    exact List.mem_map_of_mem Prod.fst he
  · intro x hx
    obtain ⟨h1, h2⟩ := hv e he x hx
    exact ⟨h1, (mem_rkeys_node ..).mpr h2⟩

theorem resolveRepo_ok_elim {parsed : ParsedRepo} {r : Repo}
    (h : resolveRepo parsed = some (.ok r)) :
    (∀ e ∈ parsed.branches, ∀ x ∈ e.2.inherits,
      ValidEntry (repoKeys parsed) e.2 x) ∧
    r = wireFold (addAll (Repo.new parsed.name) (repoKeys parsed))
      (parsed.branches.map Prod.snd) := by
  obtain ⟨hv, hr⟩ := wireAll_ok_elim h
  refine ⟨?_, hr⟩
  intro e he x hx
  obtain ⟨h1, h2⟩ := (hv e.2 (List.mem_map_of_mem Prod.snd he)).2 x hx
  exact ⟨h1, (mem_rkeys_node ..).mp h2⟩

theorem resolveRepo_find {parsed : ParsedRepo} {r : Repo}
    (hw : WellKeyed parsed) (hnd : (repoKeys parsed).Nodup)
    (h : resolveRepo parsed = some (.ok r)) :
    r.name = parsed.name ∧
    ∀ n, r.find_branch n =
      (lookupAL parsed.branches n).map fun pb => ⟨pb.name, pb.inherits⟩ := by
  obtain ⟨hv, hr⟩ := resolveRepo_ok_elim h
  subst hr
  have hnames : ((parsed.branches.map Prod.snd).map ParsedBranch.name).Nodup := by
    rw [names_map_snd hw]; exact hnd
  constructor
  · rw [name_wireFold, name_addAll]
    rfl
  · intro n
    cases hlk : lookupAL parsed.branches n with
    | none =>
        have hnk : n ∉ repoKeys parsed := (lookupAL_eq_none_iff _ _).mp hlk
        have hnn : n ∉ (parsed.branches.map Prod.snd).map ParsedBranch.name := by
          rw [names_map_snd hw]; exact hnk
        rw [find_wireFold_not_mem hnn, find_branch_addAll]
        simp [hnk]
        rfl
    | some pb =>
        have hmem : (n, pb) ∈ parsed.branches := lookupAL_mem hlk
        have hpbn : pb.name = n := hw (n, pb) hmem
        have hpbm : pb ∈ parsed.branches.map Prod.snd :=
          List.mem_map_of_mem Prod.snd hmem
        have hfind : (wireFold (addAll (Repo.new parsed.name) (repoKeys parsed))
            (parsed.branches.map Prod.snd)).find_branch pb.name =
            ((addAll (Repo.new parsed.name) (repoKeys parsed)).find_branch
              pb.name).map (fun b => ⟨b.name, b.inherits ++ pb.inherits⟩) :=
          find_wireFold_mem hnames hpbm
        rw [hpbn] at hfind
        rw [hfind, find_branch_addAll]
        have hnk : n ∈ repoKeys parsed := by
          rw [← hpbn]
          rw [hpbn]
          exact List.mem_map.mpr ⟨(n, pb), hmem, rfl⟩
        simp [hnk, Branch.new, hpbn]

theorem resolveRepo_ne_none {parsed : ParsedRepo} (hw : WellKeyed parsed) :
    resolveRepo parsed ≠ none := by
  apply wireAll_ne_none
  intro pb hpb
  obtain ⟨e, he, hpb2⟩ := List.mem_map.mp hpb
  subst hpb2
  rw [mem_rkeys_node, hw e he]
  exact List.mem_map_of_mem Prod.fst he

theorem resolveRepo_error_structural {parsed : ParsedRepo} {e : Error}
    (h : resolveRepo parsed = some (.error e)) :
    ∃ m, e = .StructuralError m :=
  wireAll_error_structural h

theorem resolveRepo_fails {parsed : ParsedRepo} (hw : WellKeyed parsed)
    (hbad : ∃ e ∈ parsed.branches, ∃ x ∈ e.2.inherits,
      ¬ ValidEntry (repoKeys parsed) e.2 x) :
    ∃ m, resolveRepo parsed = some (.error (.StructuralError m)) := by
  cases hres : resolveRepo parsed with
  | none => exact absurd hres (resolveRepo_ne_none hw)
  | some x =>
      cases x with
      | ok r =>
          obtain ⟨e, he, x, hx, hnv⟩ := hbad
          exact absurd ((resolveRepo_ok_elim hres).1 e he x hx) hnv
      | error e =>
          obtain ⟨m, rfl⟩ := resolveRepo_error_structural hres
          exact ⟨m, rfl⟩

theorem resolveRepo_error_at (parsed : ParsedRepo)
    (bpre brest : List (String × ParsedBranch)) (b : ParsedBranch) (e : Error)
    (hw : WellKeyed parsed)
    (hsplit : parsed.branches = bpre ++ (b.name, b) :: brest)
    (hpre : ∀ q ∈ bpre, ∀ x ∈ q.2.inherits, ValidEntry (repoKeys parsed) q.2 x)
    (herr : wireParents parsed.name b.name
      (wireFold (addAll (Repo.new parsed.name) (repoKeys parsed))
        (bpre.map Prod.snd)) b.inherits = .error e) :
    resolveRepo parsed = some (.error e) := by
  have hmapsnd : parsed.branches.map Prod.snd =
      bpre.map Prod.snd ++ b :: brest.map Prod.snd := by
    rw [hsplit]; simp
  rw [resolveRepo, hmapsnd]
  apply wireAll_error_prefix
  · intro q hq
    obtain ⟨e0, he0, hq2⟩ := List.mem_map.mp hq
    subst hq2
    have he0m : e0 ∈ parsed.branches := by
      rw [hsplit]; exact List.mem_append_left _ he0
    constructor
    · rw [mem_rkeys_node, hw e0 he0m]
      exact List.mem_map_of_mem Prod.fst he0m
    · intro x hx
      obtain ⟨h1, h2⟩ := hpre e0 he0 x hx
      exact ⟨h1, (mem_rkeys_node ..).mpr h2⟩
  · rw [mem_rkeys_node]
    rw [hsplit]
    exact List.mem_map.mpr ⟨(b.name, b), List.mem_append_right _ (by simp), rfl⟩
  · exact herr

end Scout

namespace Scout

theorem decodeBranches_invariants
    {ts : List Toml} {acc m : List (String × ParsedBranch)}
    (hk : ∀ e ∈ acc, e.2.name = e.1) (hnd : (acc.map Prod.fst).Nodup)
    (h : decodeBranches ts acc = .ok m) :
    (∀ e ∈ m, e.2.name = e.1) ∧ (m.map Prod.fst).Nodup := by
  induction ts generalizing acc with
  | nil =>
      have : acc = m := by simpa [decodeBranches] using h
      subst this
      exact ⟨hk, hnd⟩
  | cons t rest ih =>
      cases htb : t.as_table with
      | none => simp [decodeBranches, htb] at h
      | some tb =>
          cases hpb : ParsedBranch.from_toml tb with
          | error e => simp [decodeBranches, htb, hpb] at h
          | ok pb =>
              have h2 : decodeBranches rest (insertAL acc pb.name pb) = .ok m := by
                simpa [decodeBranches, htb, hpb] using h
              apply ih _ _ h2
              · intro e he
                rcases mem_insertAL he with h3 | h3
                · exact hk e h3
                · rw [h3]
              · exact nodupKeys_insertAL hnd

theorem ParsedRepo_from_toml_invariants {tbl : TomlTable} {parsed : ParsedRepo}
    (h : ParsedRepo.from_toml tbl = .ok parsed) :
    WellKeyed parsed ∧ (repoKeys parsed).Nodup := by
  unfold ParsedRepo.from_toml at h
  cases hnm : (lookupAL tbl "name").bind Toml.as_str with
  | none => rw [hnm] at h; simp at h
  | some nm =>
      rw [hnm] at h
      cases hbr : (lookupAL tbl "branch").bind Toml.as_slice with
      | none => rw [hbr] at h; simp at h
      | some bs =>
          rw [hbr] at h
          replace h : Except.map (fun bs2 => ParsedRepo.mk nm bs2)
              (decodeBranches bs []) = .ok parsed := h
          cases hdb : decodeBranches bs [] with
          | error e => rw [hdb] at h; simp [Except.map] at h
          | ok m =>
              rw [hdb] at h
              have hp : parsed = ⟨nm, m⟩ := by
                simpa [Except.map] using h.symm
              subst hp
              obtain ⟨h1, h2⟩ := decodeBranches_invariants
                (by simp) (by simp) hdb
              exact ⟨h1, h2⟩

theorem Repo_from_toml_ne_none (tbl : TomlTable) : Repo.from_toml tbl ≠ none := by
  unfold Repo.from_toml
  cases hp : ParsedRepo.from_toml tbl with
  | error e => simp
  | ok parsed =>
      exact resolveRepo_ne_none (ParsedRepo_from_toml_invariants hp).1

theorem Repo_from_toml_ok_elim {tbl : TomlTable} {r : Repo}
    (h : Repo.from_toml tbl = some (.ok r)) :
    ∃ parsed, ParsedRepo.from_toml tbl = .ok parsed ∧
      resolveRepo parsed = some (.ok r) ∧
      WellKeyed parsed ∧ (repoKeys parsed).Nodup := by
  unfold Repo.from_toml at h
  cases hp : ParsedRepo.from_toml tbl with
  | error e => rw [hp] at h; simp at h
  | ok parsed =>
      rw [hp] at h
      obtain ⟨h1, h2⟩ := ParsedRepo_from_toml_invariants hp
      exact ⟨parsed, rfl, h, h1, h2⟩

theorem Repo_from_toml_good {tbl : TomlTable} {r : Repo}
    (h : Repo.from_toml tbl = some (.ok r)) :
    (rkeys r).Nodup ∧ ∀ e ∈ r.branches, e.2.name = e.1 ∧
      e.2.name ∉ e.2.inherits ∧ ∀ p ∈ e.2.inherits, (r.find_branch p).isSome := by
  obtain ⟨parsed, _, hres, hw, hnd⟩ := Repo_from_toml_ok_elim h
  obtain ⟨hv, hr⟩ := resolveRepo_ok_elim hres
  have hrk : rkeys r = rkeys (addAll (Repo.new parsed.name) (repoKeys parsed)) := by
    rw [hr, rkeys_wireFold]
  have hrnd : (rkeys r).Nodup := by
    rw [hrk]
    exact rkeys_nodup_addAll _ _ (by simp [rkeys, Repo.new])
  refine ⟨hrnd, ?_⟩
  intro e he
  have hfind : r.find_branch e.1 = some e.2 := by
    apply mem_lookupAL hrnd
    simpa using he
  obtain ⟨_, hfch⟩ := resolveRepo_find hw hnd hres
  rw [hfch e.1] at hfind
  cases hlk : lookupAL parsed.branches e.1 with
  | none => rw [hlk] at hfind; simp at hfind
  | some pb =>
      rw [hlk] at hfind
      have he2 : e.2 = ⟨pb.name, pb.inherits⟩ := by
        simpa using hfind.symm
      have hpbmem : (e.1, pb) ∈ parsed.branches := lookupAL_mem hlk
      have hpbn : pb.name = e.1 := hw (e.1, pb) hpbmem
      have hvv := hv (e.1, pb) hpbmem
      refine ⟨by rw [he2]; exact hpbn, ?_, ?_⟩
      · rw [he2]
        intro hc
        exact ((hvv pb.name hc).1) rfl
      · intro p hp
        have hp2 : p ∈ pb.inherits := by rw [he2] at hp; exact hp
        have := (hvv p hp2).2
        rw [← mem_rkeys_iff_find_isSome]
        rw [hrk, mem_rkeys_node]
        exact this

theorem buildRepos_entries (P : String × Repo → Prop)
    (hP : ∀ tbl r, Repo.from_toml tbl = some (.ok r) → P (r.name, r)) :
    ∀ (ts : List Toml) (ctx : Context) (c : Context),
      (∀ e ∈ ctx.repos, P e) → buildRepos ts ctx = some (.ok c) →
      ∀ e ∈ c.repos, P e := by
  intro ts
  induction ts with
  | nil =>
      intro ctx c hctx h
      have : ctx = c := by simpa [buildRepos] using h
      subst this
      exact hctx
  | cons t rest ih =>
      intro ctx c hctx h
      cases htb : t.as_table with
      | none => simp [buildRepos, htb] at h
      | some tb =>
          cases hrt : Repo.from_toml tb with
          | none => simp [buildRepos, htb, hrt] at h
          | some x =>
              cases x with
              | error e => simp [buildRepos, htb, hrt] at h
              | ok repo =>
                  have h2 : buildRepos rest (ctx.add_repo repo) = some (.ok c) := by
                    simpa [buildRepos, htb, hrt] using h
                  apply ih _ _ _ h2
                  intro e he
                  rcases mem_insertAL he with h3 | h3
                  · exact hctx e h3
                  · rw [h3]
                    exact hP tb repo hrt

theorem buildRepos_ne_none (ts : List Toml) (ctx : Context) :
    buildRepos ts ctx ≠ none := by
  induction ts generalizing ctx with
  | nil => simp [buildRepos]
  | cons t rest ih =>
      cases htb : t.as_table with
      | none => simp [buildRepos, htb]
      | some tb =>
          cases hrt : Repo.from_toml tb with
          | none => exact absurd hrt (Repo_from_toml_ne_none tb)
          | some x =>
              cases x with
              | error e => simp [buildRepos, htb, hrt]
              | ok repo => simpa [buildRepos, htb, hrt] using ih (ctx.add_repo repo)

theorem Context_from_toml_entries (P : String × Repo → Prop)
    (hP : ∀ tbl r, Repo.from_toml tbl = some (.ok r) → P (r.name, r))
    {tbl : TomlTable} {c : Context} (h : Context.from_toml tbl = some (.ok c)) :
    ∀ e ∈ c.repos, P e := by
  unfold Context.from_toml at h
  cases hr : (lookupAL tbl "repo").bind Toml.as_slice with
  | none => rw [hr] at h; simp at h
  | some repos =>
      rw [hr] at h
      exact buildRepos_entries P hP repos Context.new c (by simp [Context.new]) h

end Scout

namespace Scout

theorem readInherits_append (l1 l2 : List Toml) :
    readInherits (l1 ++ l2) =
      match readInherits l1 with
      | .ok s1 => (readInherits l2).map fun s2 => s1 ++ s2
      | .error e => .error e := by
  induction l1 with
  | nil =>
      simp only [List.nil_append, readInherits]
      cases readInherits l2 <;> simp [Except.map]
  | cons b rest ih =>
      cases hb : b.as_str with
      | none => simp [readInherits, hb]
      | some s =>
          simp only [List.cons_append, readInherits, hb, List.append_eq]
          rw [ih]
          cases hr : readInherits rest with
          | error e => simp [Except.map]
          | ok s1 =>
              cases hl2 : readInherits l2 with
              | error e => simp [Except.map]
              | ok s2 => simp [Except.map]

theorem readInherits_error_of_nonstring {l : List Toml}
    (h : ∃ b ∈ l, b.as_str = none) :
    readInherits l = .error (.TomlError "`inherits` values should be strings") := by
  induction l with
  | nil => simp at h
  | cons b rest ih =>
      cases hb : b.as_str with
      | none => simp [readInherits, hb]
      | some s =>
          obtain ⟨b2, hb2, hb2n⟩ := h
          rcases List.mem_cons.mp hb2 with rfl | hb2r
          · rw [hb] at hb2n
            simp at hb2n
          · simp [readInherits, hb, ih ⟨b2, hb2r, hb2n⟩, Except.map]

theorem readInherits_strings (ss : List String) :
    readInherits (ss.map Toml.str) = .ok ss := by
  induction ss with
  | nil => rfl
  | cons s rest ih => simp [readInherits, Toml.as_str, ih, Except.map]

theorem decodeBranches_append (l1 l2 : List Toml)
    (acc : List (String × ParsedBranch)) :
    decodeBranches (l1 ++ l2) acc =
      match decodeBranches l1 acc with
      | .ok m => decodeBranches l2 m
      | .error e => .error e := by
  induction l1 generalizing acc with
  | nil => simp [decodeBranches]
  | cons b rest ih =>
      cases hb : b.as_table with
      | none => simp [decodeBranches, hb]
      | some t =>
          cases hpb : ParsedBranch.from_toml t with
          | error e => simp [decodeBranches, hb, hpb]
          | ok pb => simp [decodeBranches, hb, hpb, ih]

theorem buildRepos_append (l1 l2 : List Toml) (ctx : Context) :
    buildRepos (l1 ++ l2) ctx =
      match buildRepos l1 ctx with
      | some (.ok c) => buildRepos l2 c
      | x => x := by
  induction l1 generalizing ctx with
  | nil => simp [buildRepos]
  | cons t rest ih =>
      cases htb : t.as_table with
      | none => simp [buildRepos, htb]
      | some tb =>
          cases hrt : Repo.from_toml tb with
          | none => simp [buildRepos, htb, hrt]
          | some x =>
              cases x with
              | error e => simp [buildRepos, htb, hrt]
              | ok repo => simp [buildRepos, htb, hrt, ih]

theorem decodeBranches_error_acc_independent (ts : List Toml)
    (acc1 acc2 : List (String × ParsedBranch)) (e : Error) :
    decodeBranches ts acc1 = .error e ↔ decodeBranches ts acc2 = .error e := by
  induction ts generalizing acc1 acc2 with
  | nil => simp [decodeBranches]
  | cons b rest ih =>
      cases hb : b.as_table with
      | none => simp [decodeBranches, hb]
      | some t =>
          cases hpb : ParsedBranch.from_toml t with
          | error e2 => simp [decodeBranches, hb, hpb]
          | ok pb =>
              simp only [decodeBranches, hb, hpb]
              exact ih (insertAL acc1 pb.name pb) (insertAL acc2 pb.name pb)

theorem buildRepos_error_ctx_independent (ts : List Toml)
    (ctx1 ctx2 : Context) (e : Error) :
    buildRepos ts ctx1 = some (.error e) ↔
      buildRepos ts ctx2 = some (.error e) := by
  induction ts generalizing ctx1 ctx2 with
  | nil => simp [buildRepos]
  | cons t rest ih =>
      cases htb : t.as_table with
      | none => simp [buildRepos, htb]
      | some tb =>
          cases hrt : Repo.from_toml tb with
          | none => simp [buildRepos, htb, hrt]
          | some x =>
              cases x with
              | error e2 => simp [buildRepos, htb, hrt]
              | ok repo =>
                  simp only [buildRepos, htb, hrt]
                  exact ih (ctx1.add_repo repo) (ctx2.add_repo repo)

end Scout

/-! ## The claims -/

namespace Scout

/-- C4: every decode/resolve loop short-circuits: processing `l1 ++ l2`
yields the result of `l1` whenever that result is an error (or a panic),
touching `l2` only after `l1` fully succeeds, for the inherits loop, the
branch-decoding loop, and the repo loop of `Context::from_toml`; hence the
first error aborts the whole pipeline with no partial result and no error
accumulation. -/
theorem first_error_aborts_pipeline :
    (∀ (l1 l2 : List Toml), readInherits (l1 ++ l2) =
      match readInherits l1 with
      | .ok s1 => (readInherits l2).map fun s2 => s1 ++ s2
      | .error e => .error e) ∧
    (∀ (l1 l2 : List Toml) (acc : List (String × ParsedBranch)),
      decodeBranches (l1 ++ l2) acc =
        match decodeBranches l1 acc with
        | .ok m => decodeBranches l2 m
        | .error e => .error e) ∧
    (∀ (l1 l2 : List Toml) (ctx : Context), buildRepos (l1 ++ l2) ctx =
      match buildRepos l1 ctx with
      | some (.ok c) => buildRepos l2 c
      | x => x) :=
  ⟨readInherits_append, decodeBranches_append, buildRepos_append⟩

/-- C5: decode_branch requires a string `name` (else the exact ShapeError),
requires `inherits`, when present, to be an array of strings (else the two
exact ShapeErrors), and otherwise returns the declaration with the inherits
strings in written order, empty when the key is absent. -/
theorem decode_branch_shape (tbl : TomlTable) :
    ((lookupAL tbl "name").bind Toml.as_str = none →
      ParsedBranch.from_toml tbl =
        .error (.TomlError "table `branch` should have a `name` attribute")) ∧
    (∀ nm, (lookupAL tbl "name").bind Toml.as_str = some nm →
      (∀ v, lookupAL tbl "inherits" = some v → v.as_slice = none →
        ParsedBranch.from_toml tbl =
          .error (.TomlError "value `inherits` should be an array")) ∧
      (∀ v l, lookupAL tbl "inherits" = some v → v.as_slice = some l →
        (∃ b ∈ l, b.as_str = none) →
        ParsedBranch.from_toml tbl =
          .error (.TomlError "`inherits` values should be strings")) ∧
      (lookupAL tbl "inherits" = none →
        ParsedBranch.from_toml tbl = .ok ⟨nm, []⟩) ∧
      (∀ ss, lookupAL tbl "inherits" = some (.arr (ss.map Toml.str)) →
        ParsedBranch.from_toml tbl = .ok ⟨nm, ss⟩)) := by
  constructor
  · intro h
    simp [ParsedBranch.from_toml, h]
  · intro nm hnm
    refine ⟨?_, ?_, ?_, ?_⟩
    · intro v hv hs
      simp [ParsedBranch.from_toml, hnm, hv, hs]
    · intro v l hv hl hex
      simp [ParsedBranch.from_toml, hnm, hv, hl,
        readInherits_error_of_nonstring hex, Except.map]
    · intro hi
      simp [ParsedBranch.from_toml, hnm, hi]
    · intro ss hi
      simp [ParsedBranch.from_toml, hnm, hi, Toml.as_slice,
        readInherits_strings, Except.map]

/-- C5 witness: a concrete branch table with name `pnl` and inherits
`[a, b]` decodes to the declaration with those strings in order. -/
theorem decode_branch_shape_witness :
    ParsedBranch.from_toml
      [("name", .str "pnl"), ("inherits", .arr [.str "a", .str "b"])] =
      .ok ⟨"pnl", ["a", "b"]⟩ :=
  ((decode_branch_shape
    [("name", .str "pnl"), ("inherits", .arr [.str "a", .str "b"])]).2
    "pnl" rfl).2.2.2 ["a", "b"] rfl

/-- C7: duplicate names are not an error: the map insert used by branch
decoding and by `add_branch`/`add_repo` makes the later binding win, the
decode loops' error behaviour is independent of the accumulated mapping (so
duplication never raises an error), and concretely a document with two
branches `b` in repo `a` and two repos named `a` resolves successfully to a
model holding only the last declaration of each duplicated name. -/
theorem duplicate_names_last_write_wins :
    (∀ (acc : List (String × ParsedBranch)) (pb : ParsedBranch),
      lookupAL (insertAL acc pb.name pb) pb.name = some pb) ∧
    (∀ (r : Repo) (b : Branch),
      lookupAL (r.add_branch b).branches b.name = some b) ∧
    (∀ (c : Context) (rp : Repo),
      lookupAL (c.add_repo rp).repos rp.name = some rp) ∧
    (∀ (ts : List Toml) (acc1 acc2 : List (String × ParsedBranch)) (e : Error),
      decodeBranches ts acc1 = .error e ↔ decodeBranches ts acc2 = .error e) ∧
    (∀ (ts : List Toml) (c1 c2 : Context) (e : Error),
      buildRepos ts c1 = some (.error e) ↔
        buildRepos ts c2 = some (.error e)) ∧
    Context.from_toml dupDoc =
      some (.ok ⟨[("a", ⟨"a", [("y", ⟨"y", []⟩)]⟩)]⟩) ∧
    Repo.from_toml [("name", .str "a"),
        ("branch", .arr [branchTbl0 "x", branchTbl0 "b", branchTbl "b" ["x"]])] =
      some (.ok ⟨"a", [("x", ⟨"x", []⟩), ("b", ⟨"b", ["x"]⟩)]⟩) := by
  refine ⟨?_, ?_, ?_, decodeBranches_error_acc_independent,
    buildRepos_error_ctx_independent, rfl, rfl⟩
  · intro acc pb
    simp [lookupAL_insertAL]
  · intro r b
    simp [Repo.add_branch, lookupAL_insertAL]
  · intro c rp
    simp [Context.add_repo, lookupAL_insertAL]

/-- C8: the diamond document (`b` and `c` inherit `a`; `d` inherits `b` and
`c`, all in repo `r`) resolves successfully; `d`'s inherits holds edges to
`b` and `c`, `b`'s and `c`'s inherits each hold an edge to `a`, and the repo
holds exactly one `a` node (edges are map keys, so equal keys share the one
entry). -/
theorem diamond_inheritance_shared :
    Context.from_toml diamondDoc = some (.ok ⟨[("r", diamondRepo)]⟩) ∧
    diamondRepo.find_branch "d" = some ⟨"d", ["b", "c"]⟩ ∧
    diamondRepo.find_branch "b" = some ⟨"b", ["a"]⟩ ∧
    diamondRepo.find_branch "c" = some ⟨"c", ["a"]⟩ ∧
    (diamondRepo.branches.map Prod.fst).count "a" = 1 :=
  ⟨rfl, rfl, rfl, rfl, rfl⟩

end Scout

namespace Scout

/-- C9: the `find_branch(..).unwrap()` on the child in the wiring pass never
panics: `Repo::from_toml` always returns a value (never the panic outcome),
because after the node-creation pass every key of the parsed branch mapping
has a branch in the resolved repo, and decoded repos are keyed by branch
name. -/
theorem child_lookup_unwrap_never_panics :
    (∀ tbl : TomlTable, ∃ x, Repo.from_toml tbl = some x) ∧
    (∀ parsed : ParsedRepo, WellKeyed parsed →
      (∀ k ∈ repoKeys parsed,
        ((addAll (Repo.new parsed.name) (repoKeys parsed)).find_branch k) =
          some (Branch.new k)) ∧
      ∃ x, resolveRepo parsed = some x) := by
  constructor
  · intro tbl
    exact Option.ne_none_iff_exists'.mp (Repo_from_toml_ne_none tbl)
  · intro parsed hw
    constructor
    · intro k hk
      rw [find_branch_addAll]
      simp [hk]
    · exact Option.ne_none_iff_exists'.mp (resolveRepo_ne_none hw)

/-- C9 witness: the resolver returns a value on a concrete two-branch
declaration. -/
theorem child_lookup_unwrap_never_panics_witness :
    ∃ x, resolveRepo ⟨"a", [("b", ⟨"b", ["c"]⟩), ("c", ⟨"c", []⟩)]⟩ = some x :=
  (child_lookup_unwrap_never_panics.2
    ⟨"a", [("b", ⟨"b", ["c"]⟩), ("c", ⟨"c", []⟩)]⟩ (by decide)).2

/-- C10: the key-equals-name invariant: `add_branch` and `add_repo` preserve
it, `find_branch n` only ever returns a branch named `n` under it, and every
successfully resolved context satisfies it at both levels. -/
theorem key_equals_name_invariant :
    (∀ (r : Repo) (b : Branch), RepoKeyEqName r → RepoKeyEqName (r.add_branch b)) ∧
    (∀ (c : Context) (rp : Repo), CtxKeyEqName c → CtxKeyEqName (c.add_repo rp)) ∧
    (∀ (r : Repo) (n : String) (b : Branch), RepoKeyEqName r →
      r.find_branch n = some b → b.name = n) ∧
    (∀ (tbl : TomlTable) (c : Context), Context.from_toml tbl = some (.ok c) →
      CtxKeyEqName c ∧ ∀ e ∈ c.repos, RepoKeyEqName e.2) := by
  refine ⟨?_, ?_, ?_, ?_⟩
  · intro r b hr e he
    rcases mem_insertAL he with h1 | h1
    · exact hr e h1
    · rw [h1]
  · intro c rp hc e he
    rcases mem_insertAL he with h1 | h1
    · exact hc e h1
    · rw [h1]
  · intro r n b hr hf
    exact hr (n, b) (lookupAL_mem hf)
  · intro tbl c h
    have hent := Context_from_toml_entries
      (fun e => e.2.name = e.1 ∧ RepoKeyEqName e.2)
      (fun tbl2 r hr => ⟨rfl, fun be hbe => (Repo_from_toml_good hr).2 be hbe |>.1⟩) h
    exact ⟨fun e he => (hent e he).1, fun e he => (hent e he).2⟩

/-- C10 witness: on the resolved diamond repo (which satisfies the
invariant), looking up `b` returns a branch named `b`. -/
theorem key_equals_name_invariant_witness :
    (Branch.mk "b" ["a"]).name = "b" :=
  key_equals_name_invariant.2.2.1 diamondRepo "b" ⟨"b", ["a"]⟩ (by decide) rfl

/-- C6: every successfully resolved context satisfies the structural
invariants: within each repo the branch names are unique, no branch's
inherits list refers to the branch itself, and every inherits edge refers to
a branch present in the same repo's mapping. -/
theorem resolved_context_invariants (tbl : TomlTable) (c : Context)
    (h : Context.from_toml tbl = some (.ok c)) :
    ∀ e ∈ c.repos, (e.2.branches.map fun be => be.2.name).Nodup ∧
      ∀ be ∈ e.2.branches, be.2.name ∉ be.2.inherits ∧
        ∀ pn ∈ be.2.inherits, (e.2.find_branch pn).isSome := by
  apply Context_from_toml_entries
    (fun e => (e.2.branches.map fun be => be.2.name).Nodup ∧
      ∀ be ∈ e.2.branches, be.2.name ∉ be.2.inherits ∧
        ∀ pn ∈ be.2.inherits, (e.2.find_branch pn).isSome) _ h
  intro tbl2 r hr
  obtain ⟨hnd, hgood⟩ := Repo_from_toml_good hr
  constructor
  · have hmap : (r.branches.map fun be => be.2.name) = r.branches.map Prod.fst :=
      List.map_congr_left fun be hbe => (hgood be hbe).1
    rw [hmap]
    exact hnd
  · intro be hbe
    exact (hgood be hbe).2

/-- C6 witness: the invariants instantiated on the resolved diamond
document at its single repo entry. -/
theorem resolved_context_invariants_witness :
    (diamondRepo.branches.map fun be => be.2.name).Nodup ∧
      ∀ be ∈ diamondRepo.branches, be.2.name ∉ be.2.inherits ∧
        ∀ pn ∈ be.2.inherits, (diamondRepo.find_branch pn).isSome :=
  resolved_context_invariants diamondDoc ⟨[("r", diamondRepo)]⟩ rfl
    ("r", diamondRepo) (by simp)

end Scout

namespace Scout

/-- C2: a repository declaration in which some branch's inherits list
contains its own name never resolves: it always fails with some
StructuralError, and whenever every other inherits entry is valid the error
is exactly the self-inheritance message for that branch, however many valid
entries precede or follow the self-reference. -/
theorem self_inheritance_rejected (parsed : ParsedRepo) (b : ParsedBranch)
    (hw : WellKeyed parsed) (hmem : (b.name, b) ∈ parsed.branches)
    (hself : b.name ∈ b.inherits) :
    (∃ m, resolveRepo parsed = some (.error (.StructuralError m))) ∧
    ((∀ e ∈ parsed.branches, ∀ x ∈ e.2.inherits,
        (e.2 = b ∧ x = b.name) ∨ ValidEntry (repoKeys parsed) e.2 x) →
      resolveRepo parsed = some (.error (.StructuralError
        ("branch `" ++ b.name ++ "` in repo `" ++ parsed.name ++
          "` cannot inherit from itself")))) := by
  constructor
  · exact resolveRepo_fails hw
      ⟨(b.name, b), hmem, b.name, hself, fun hv => hv.1 rfl⟩
  · intro hothers
    obtain ⟨bpre, brest, hsplit, hnpre⟩ := mem_split_first hmem
    obtain ⟨ipre, irest, hisplit, hinpre⟩ := mem_split_first hself
    apply resolveRepo_error_at parsed bpre brest b _ hw hsplit
    · intro q hq x hx
      have hqmem : q ∈ parsed.branches := by
        rw [hsplit]
        exact List.mem_append_left _ hq
      rcases hothers q hqmem x hx with ⟨hqb, hxb⟩ | hvalid
      · exfalso
        have hq1 : q.1 = b.name := by
          rw [← hqb]
          exact (hw q hqmem).symm
        have hqe : q = (b.name, b) := Prod.ext hq1 hqb
        rw [hqe] at hq
        exact hnpre hq
      · exact hvalid
    · rw [hisplit]
      apply wireParents_error_self
      intro x hx
      have hxmem : x ∈ b.inherits := by
        rw [hisplit]
        exact List.mem_append_left _ hx
      have hxne : x ≠ b.name := fun hc => hinpre (hc ▸ hx)
      rcases hothers (b.name, b) hmem x hxmem with ⟨_, hxb⟩ | hvalid
      · exact absurd hxb hxne
      · refine ⟨hvalid.1, ?_⟩
        rw [rkeys_wireFold, mem_rkeys_node]
        exact hvalid.2

/-- C2 witness: the one-branch self-inheriting declaration fails with the
exact message of the test in parser.rs. -/
theorem self_inheritance_rejected_witness :
    resolveRepo ⟨"a", [("b", ⟨"b", ["b"]⟩)]⟩ = some (.error (.StructuralError
      "branch `b` in repo `a` cannot inherit from itself")) :=
  (self_inheritance_rejected ⟨"a", [("b", ⟨"b", ["b"]⟩)]⟩ ⟨"b", ["b"]⟩
    (by decide) (by decide) (by decide)).2 (by decide)

/-- C3: a repository declaration in which some branch's inherits list
contains a name absent from the same repository's branch mapping never
resolves: it always fails with some StructuralError; whenever every other
inherits entry is valid the error is exactly the unknown-branch message; and
the lookup is confined to the same repo: a document where repo `z` declares
branch `c` and repo `a` references `c` still fails with unknown branch `c`
in repo `a`. -/
theorem unknown_parent_rejected (parsed : ParsedRepo) (b : ParsedBranch)
    (p : String) (hw : WellKeyed parsed) (hmem : (b.name, b) ∈ parsed.branches)
    (hp : p ∈ b.inherits) (hnk : p ∉ repoKeys parsed) :
    (∃ m, resolveRepo parsed = some (.error (.StructuralError m))) ∧
    ((∀ e ∈ parsed.branches, ∀ x ∈ e.2.inherits,
        (e.2 = b ∧ x = p) ∨ ValidEntry (repoKeys parsed) e.2 x) →
      resolveRepo parsed = some (.error (.StructuralError
        ("unknown branch `" ++ p ++ "` in repo `" ++ parsed.name ++ "`")))) ∧
    Context.from_toml crossRepoDoc =
      some (.error (.StructuralError "unknown branch `c` in repo `a`")) := by
  have hpneb : p ≠ b.name := by
    intro hc
    apply hnk
    rw [hc]
    have : (b.name, b).1 ∈ parsed.branches.map Prod.fst :=
      List.mem_map_of_mem Prod.fst hmem
    exact this
  refine ⟨?_, ?_, rfl⟩
  · exact resolveRepo_fails hw ⟨(b.name, b), hmem, p, hp, fun hv => hnk hv.2⟩
  · intro hothers
    obtain ⟨bpre, brest, hsplit, hnpre⟩ := mem_split_first hmem
    obtain ⟨ipre, irest, hisplit, hinpre⟩ := mem_split_first hp
    apply resolveRepo_error_at parsed bpre brest b _ hw hsplit
    · intro q hq x hx
      have hqmem : q ∈ parsed.branches := by
        rw [hsplit]
        exact List.mem_append_left _ hq
      rcases hothers q hqmem x hx with ⟨hqb, hxb⟩ | hvalid
      · exfalso
        have hq1 : q.1 = b.name := by
          rw [← hqb]
          exact (hw q hqmem).symm
        have hqe : q = (b.name, b) := Prod.ext hq1 hqb
        rw [hqe] at hq
        exact hnpre hq
      · exact hvalid
    · rw [hisplit]
      apply wireParents_error_unknown
      · intro x hx
        have hxmem : x ∈ b.inherits := by
          rw [hisplit]
          exact List.mem_append_left _ hx
        have hxne : x ≠ p := fun hc => hinpre (hc ▸ hx)
        rcases hothers (b.name, b) hmem x hxmem with ⟨_, hxb⟩ | hvalid
        · exact absurd hxb hxne
        · refine ⟨hvalid.1, ?_⟩
          rw [rkeys_wireFold, mem_rkeys_node]
          exact hvalid.2
      · exact hpneb
      · rw [rkeys_wireFold, mem_rkeys_node]
        exact hnk

/-- C3 witness: the one-branch declaration referencing the undeclared `c`
fails with the exact message of the test in parser.rs. -/
theorem unknown_parent_rejected_witness :
    resolveRepo ⟨"a", [("b", ⟨"b", ["c"]⟩)]⟩ = some (.error (.StructuralError
      "unknown branch `c` in repo `a`")) :=
  ((unknown_parent_rejected ⟨"a", [("b", ⟨"b", ["c"]⟩)]⟩ ⟨"b", ["c"]⟩ "c"
    (by decide) (by decide) (by decide) (by decide)).2).1 (by decide)

/-- C1: the node-creation pass gives every declared key a fresh node before
any wiring, so forward references resolve, and on success the resolved
graph does not depend on the declaration order of the branches: resolving
any permutation of the branch mapping succeeds with an extensionally equal
repo. -/
theorem forward_references_order_independent :
    (∀ (parsed : ParsedRepo) (k : String), k ∈ repoKeys parsed →
      (addAll (Repo.new parsed.name) (repoKeys parsed)).find_branch k =
        some (Branch.new k)) ∧
    (∀ (p q : ParsedRepo) (r : Repo), WellKeyed p → WellKeyed q →
      (repoKeys p).Nodup → p.name = q.name → p.branches.Perm q.branches →
      resolveRepo p = some (.ok r) →
      ∃ r2, resolveRepo q = some (.ok r2) ∧ r2.name = r.name ∧
        ∀ n, r2.find_branch n = r.find_branch n) := by
  constructor
  · intro parsed k hk
    rw [find_branch_addAll]
    simp [hk]
  · intro p q r hwp hwq hndp hname hperm hres
    have hkperm : (repoKeys p).Perm (repoKeys q) := hperm.map Prod.fst
    have hndq : (repoKeys q).Nodup := hkperm.nodup_iff.mp hndp
    obtain ⟨hvp, _⟩ := resolveRepo_ok_elim hres
    have hvq : ∀ e ∈ q.branches, ∀ x ∈ e.2.inherits,
        ValidEntry (repoKeys q) e.2 x := by
      intro e he x hx
      obtain ⟨h1, h2⟩ := hvp e (hperm.mem_iff.mpr he) x hx
      exact ⟨h1, hkperm.mem_iff.mp h2⟩
    have hresq := resolveRepo_ok_of_valid hwq hvq
    refine ⟨_, hresq, ?_, ?_⟩
    · obtain ⟨hn2, _⟩ := resolveRepo_find hwq hndq hresq
      obtain ⟨hn1, _⟩ := resolveRepo_find hwp hndp hres
      rw [hn2, hn1, hname]
    · intro n
      obtain ⟨_, hf2⟩ := resolveRepo_find hwq hndq hresq
      obtain ⟨_, hf1⟩ := resolveRepo_find hwp hndp hres
      rw [hf2 n, hf1 n, lookupAL_perm hperm hndp n]

/-- C1 witness: the two-branch declaration with a forward reference (`b`
inherits the later-declared `c`) and its reversed declaration both resolve,
to extensionally equal repos. -/
theorem forward_references_order_independent_witness :
    ∃ r2, resolveRepo ⟨"a", [("c", ⟨"c", []⟩), ("b", ⟨"b", ["c"]⟩)]⟩ =
        some (.ok r2) ∧
      r2.name = (Repo.mk "a" [("b", ⟨"b", ["c"]⟩), ("c", ⟨"c", []⟩)]).name ∧
      ∀ n, r2.find_branch n =
        (Repo.mk "a" [("b", ⟨"b", ["c"]⟩), ("c", ⟨"c", []⟩)]).find_branch n :=
  forward_references_order_independent.2
    ⟨"a", [("b", ⟨"b", ["c"]⟩), ("c", ⟨"c", []⟩)]⟩
    ⟨"a", [("c", ⟨"c", []⟩), ("b", ⟨"b", ["c"]⟩)]⟩
    ⟨"a", [("b", ⟨"b", ["c"]⟩), ("c", ⟨"c", []⟩)]⟩
    (by decide) (by decide) (by decide) rfl (List.Perm.swap _ _ _) rfl

end Scout
